import Mathlib

/-!
# Verification of `scripts/maintenance/fix-formatting.py`

Shallow embedding of the template reformatter. The script reads a file,
skips it when `content.split('\n')` has more than 10 segments, otherwise
pushes the content through ten `re.sub` rules and writes it back.

File contents are `List Char`. Each `re.sub(pattern, repl, content)` call
is embedded as a left-to-right scanner with Python's semantics: at each
position the pattern is tried (greedy, with backtracking); on a match the
replacement is emitted and scanning resumes after the matched text; on a
miss one character is copied. The scanners are made structurally
recursive with a fuel argument; the wrapper passes `fuel = length`,
which always suffices because every step consumes at least one input
character. On fuel 0 the rest of the input is returned unchanged (never
reached from the wrappers).

`\s` is embedded as the six ASCII whitespace characters Python's `\s`
always covers (the claims and the template files are ASCII).
-/

/-- Python `\s` (ASCII range): space, tab, newline, carriage return,
vertical tab, form feed. -/
def wsChar (c : Char) : Bool :=
  c == ' ' || c == '\t' || c == '\n' || c == '\r' || c == '\x0b' || c == '\x0c'

/-- The regex class `[a-zA-Z]`. -/
def alphaChar (c : Char) : Bool :=
  decide (('a' ≤ c ∧ c ≤ 'z') ∨ ('A' ≤ c ∧ c ≤ 'Z'))

/-- The regex class `['\"]`. -/
def quoteChar (c : Char) : Bool :=
  c == '\'' || c == '"'

/-! ## Rule 1: `re.sub(r"(import[^;]+from\s+['\"][^'\"]+['\"])", r"\1\n", content)` -/

/-- Match of the pattern tail `from\s+['\"][^'\"]+['\"]` at the head of `l`:
literal `from`, one or more whitespace, a quote, one or more non-quote
characters, a quote. Returns the consumed text and the rest. The head of
`l4` is necessarily a quote (its leading non-quotes were taken into `s`),
which is what the closing `['\"]` class demands. -/
def fromTail (l : List Char) : Option (List Char × List Char) :=
  if ("from".toList).isPrefixOf l then
    let l1 := l.drop 4
    let w := l1.takeWhile wsChar
    let l2 := l1.dropWhile wsChar
    if w = [] then none
    else
      match l2 with
      | q1 :: l3 =>
        if quoteChar q1 then
          let s := l3.takeWhile (fun c => !quoteChar c)
          let l4 := l3.dropWhile (fun c => !quoteChar c)
          if s = [] then none
          else
            match l4 with
            | q2 :: l5 => some ("from".toList ++ w ++ q1 :: (s ++ [q2]), l5)
            | [] => none
        else none
      | [] => none
  else none

/-- Greedy backtracking for `[^;]+`: try the split after `k` characters,
then `k - 1`, ..., down to `1` (the `+` needs at least one), and take the
first (i.e. longest) split whose remainder matches the pattern tail. -/
def bestSplit (l : List Char) : Nat → Option (Nat × List Char × List Char)
  | 0 => none
  | k + 1 =>
    match fromTail (l.drop (k + 1)) with
    | some (t, r) => some (k + 1, t, r)
    | none => bestSplit l k

/-- Try the whole rule-1 pattern at the head of `l`: literal `import`,
then `[^;]+` (greedy, bounded by the run of non-`;` characters), then the
`from ... quote ... quote` tail. Returns the matched text and the rest. -/
def match1 (l : List Char) : Option (List Char × List Char) :=
  if ("import".toList).isPrefixOf l then
    let l1 := l.drop 6
    match bestSplit l1 ((l1.takeWhile (fun c => !(c == ';'))).length) with
    | some (k, t, r) => some ("import".toList ++ (l1.take k ++ t), r)
    | none => none
  else none

/-- Scanner for rule 1; the replacement `\1\n` is the whole match followed
by a newline. -/
def sub1Go : Nat → List Char → List Char
  | 0, l => l
  | _ + 1, [] => []
  | n + 1, c :: cs =>
    match match1 (c :: cs) with
    | some (m, r) => m ++ '\n' :: sub1Go n r
    | none => c :: sub1Go n cs

def sub1 (l : List Char) : List Char := sub1Go l.length l

/-! ## Rules 2 and 3: `re.sub(r"\s+(import\s)", r"\n\1", ...)` and the
same with `export`. -/

/-- Match of `<kw>\s` at the head of `l` (the group of rules 2/3 without
its leading `\s+`): the keyword then a single whitespace character.
Returns that character and the rest. -/
def kwWsMatch (kw l : List Char) : Option (Char × List Char) :=
  if kw.isPrefixOf l then
    match l.drop kw.length with
    | w :: r => if wsChar w then some (w, r) else none
    | [] => none
  else none

/-- Scanner for `re.sub(r"\s+(<kw>\s)", r"\n\1", content)`. At a
whitespace character, `\s+` must run exactly to the end of the
whitespace run (the keyword's first letter is not whitespace, so
backtracking inside the run cannot help); the match succeeds when the
keyword and one more whitespace character follow the run. The
replacement drops the matched whitespace run and emits a newline and the
group. -/
def subKwWsGo (kw : List Char) : Nat → List Char → List Char
  | 0, l => l
  | _ + 1, [] => []
  | n + 1, c :: cs =>
    if wsChar c then
      match kwWsMatch kw ((c :: cs).dropWhile wsChar) with
      | some (w, r) => '\n' :: (kw ++ w :: subKwWsGo kw n r)
      | none => c :: subKwWsGo kw n cs
    else c :: subKwWsGo kw n cs

def sub2 (l : List Char) : List Char := subKwWsGo "import".toList l.length l

def sub3 (l : List Char) : List Char := subKwWsGo "export".toList l.length l

/-! ## Rules 4-6: `re.sub(r"\s+(describe\()", r"\n\n\1", ...)`,
`re.sub(r"\s+(it\()", r"\n\n  \1", ...)`,
`re.sub(r"\s+(beforeEach\()", r"\n\n  \1", ...)`. -/

/-- Match of a literal keyword (including its `(`) at the head of `l`. -/
def kwLitMatch (kw l : List Char) : Option (List Char) :=
  if kw.isPrefixOf l then some (l.drop kw.length) else none

/-- Scanner for `re.sub(r"\s+(<kw>)", r"<pre><kw>", content)` where the
keyword is a literal ending in `(`: at a whitespace character, `\s+`
runs to the end of the whitespace run, and the match succeeds when the
literal follows. The replacement drops the run and emits `pre` and the
group. -/
def subKwLitGo (kw pre : List Char) : Nat → List Char → List Char
  | 0, l => l
  | _ + 1, [] => []
  | n + 1, c :: cs =>
    if wsChar c then
      match kwLitMatch kw ((c :: cs).dropWhile wsChar) with
      | some r => pre ++ (kw ++ subKwLitGo kw pre n r)
      | none => c :: subKwLitGo kw pre n cs
    else c :: subKwLitGo kw pre n cs

def sub4 (l : List Char) : List Char :=
  subKwLitGo "describe(".toList "\n\n".toList l.length l

def sub5 (l : List Char) : List Char :=
  subKwLitGo "it(".toList "\n\n  ".toList l.length l

def sub6 (l : List Char) : List Char :=
  subKwLitGo "beforeEach(".toList "\n\n  ".toList l.length l

/-! ## Rule 7: `re.sub(r"\}\)\s+", r"})\n", content)` -/

/-- Match of `)\s+` after the initial `}`: a `)` then at least one
whitespace character (consumed greedily). Returns the rest after the
whitespace run. -/
def parenMatch : List Char → Option (List Char)
  | ')' :: rest =>
    if rest.takeWhile wsChar = [] then none else some (rest.dropWhile wsChar)
  | _ => none

/-- Scanner for rule 7; the replacement is the literal `})` and a newline. -/
def sub7Go : Nat → List Char → List Char
  | 0, l => l
  | _ + 1, [] => []
  | n + 1, c :: cs =>
    if c = '}' then
      match parenMatch cs with
      | some r => '}' :: ')' :: '\n' :: sub7Go n r
      | none => c :: sub7Go n cs
    else c :: sub7Go n cs

def sub7 (l : List Char) : List Char := sub7Go l.length l

/-! ## Rule 8: `re.sub(r";\s*([a-zA-Z])", r";\n\1", content)` -/

/-- Match of `\s*([a-zA-Z])` after the initial `;`: the first
non-whitespace character must exist and be a letter (backtracking inside
the whitespace run cannot produce the letter earlier). Returns the
letter and the rest. -/
def semiMatch (cs : List Char) : Option (Char × List Char) :=
  match cs.dropWhile wsChar with
  | a :: r => if alphaChar a then some (a, r) else none
  | [] => none

/-- Scanner for rule 8; the replacement is `;`, a newline and the letter. -/
def sub8Go : Nat → List Char → List Char
  | 0, l => l
  | _ + 1, [] => []
  | n + 1, c :: cs =>
    if c = ';' then
      match semiMatch cs with
      | some (a, r) => ';' :: '\n' :: a :: sub8Go n r
      | none => c :: sub8Go n cs
    else c :: sub8Go n cs

def sub8 (l : List Char) : List Char := sub8Go l.length l

/-! ## Rule 9: `re.sub(r"\}\s+([a-zA-Z])", r"}\n\1", content)` -/

/-- Match of `\s+([a-zA-Z])` after the initial `}`: at least one
whitespace character, then the first non-whitespace character must be a
letter. Returns the letter and the rest. -/
def braceMatch (cs : List Char) : Option (Char × List Char) :=
  if cs.takeWhile wsChar = [] then none
  else
    match cs.dropWhile wsChar with
    | a :: r => if alphaChar a then some (a, r) else none
    | [] => none

/-- Scanner for rule 9; the replacement is `}`, a newline and the letter. -/
def sub9Go : Nat → List Char → List Char
  | 0, l => l
  | _ + 1, [] => []
  | n + 1, c :: cs =>
    if c = '}' then
      match braceMatch cs with
      | some (a, r) => '}' :: '\n' :: a :: sub9Go n r
      | none => c :: sub9Go n cs
    else c :: sub9Go n cs

def sub9 (l : List Char) : List Char := sub9Go l.length l

/-! ## Rule 10: `re.sub(r"\n\n\n+", r"\n\n", content)` -/

/-- Scanner for rule 10: at three consecutive newlines the greedy `\n+`
swallows the whole newline run, which is replaced by exactly two
newlines. -/
def sub10Go : Nat → List Char → List Char
  | 0, l => l
  | _ + 1, [] => []
  | n + 1, c :: cs =>
    if c = '\n' ∧ cs.take 2 = ['\n', '\n'] then
      '\n' :: '\n' :: sub10Go n ((cs.drop 2).dropWhile (fun x => x == '\n'))
    else c :: sub10Go n cs

def sub10 (l : List Char) : List Char := sub10Go l.length l

/-! ## The pipeline and the per-file operation -/

/-- The ten substitutions of `fix_template_formatting`, in source order. -/
def applyRules (content : List Char) : List Char :=
  sub10 (sub9 (sub8 (sub7 (sub6 (sub5 (sub4 (sub3 (sub2 (sub1 content)))))))))

/-- `fix_template_formatting(file_path)`, as a function from the file's
current content to the pair (returned Bool, file content after the
call). When `content.split('\n')` has more than 10 segments the function
returns `False` without writing; otherwise it writes
`applyRules content` and returns `True` (even when that write is
byte-identical). -/
def fix_template_formatting (content : List Char) : Bool × List Char :=
  if 10 < (content.splitOn '\n').length then (false, content)
  else (true, applyRules content)

/-- The gate of `fix_template_formatting` as a predicate on content:
the file is processed (and rewritten) exactly when its `\n`-split has at
most 10 segments. -/
def needsFix (content : List Char) : Bool :=
  decide ((content.splitOn '\n').length ≤ 10)

/-- `main`'s loop over the `*.hbs` files below `templates/`, which the
filesystem yields as a list of (path, content) pairs in traversal order.
Returns the `Fixed: <path>` lines printed, in order, and the final
`fixed_count`. -/
def run : List (List Char × List Char) → List (List Char) × Nat
  | [] => ([], 0)
  | f :: fs =>
    let res := fix_template_formatting f.2
    let rest := run fs
    if res.1 then (("Fixed: ".toList ++ f.1) :: rest.1, rest.2 + 1) else rest

/-! ## Occurrence checkers used to state the claims -/

/-- Every occurrence of `kw` in `l` is immediately preceded by a newline. -/
def everyOccNLBefore (kw l : List Char) : Bool :=
  (List.range (l.length + 1)).all fun i =>
    !(kw.isPrefixOf (l.drop i)) || ((l.take i).getLast? == some '\n')

/-- Every occurrence of `pat` in `l` is immediately followed by a newline. -/
def everyOccNLAfter (pat l : List Char) : Bool :=
  (List.range (l.length + 1)).all fun i =>
    !(pat.isPrefixOf (l.drop i)) || ((l.drop (i + pat.length)).head? == some '\n')

/-- Every occurrence of `kw` in `l` whose immediately preceding character
is whitespace has that character equal to a newline. -/
def wsOccNLBefore (kw l : List Char) : Bool :=
  (List.range (l.length + 1)).all fun i =>
    !(kw.isPrefixOf (l.drop i)) ||
      (match (l.take i).getLast? with
       | some p => !wsChar p || (p == '\n')
       | none => true)

/-- `l` contains a position where the pattern of rules 2/3 matches:
a whitespace character whose whitespace run is followed by the keyword
and one more whitespace character. -/
def hasKwWsMatch (kw : List Char) : List Char → Bool
  | [] => false
  | c :: cs =>
    (wsChar c && (kwWsMatch kw ((c :: cs).dropWhile wsChar)).isSome)
      || hasKwWsMatch kw cs

/-- `l` contains three consecutive newlines somewhere. -/
def hasTriple : List Char → Bool
  | [] => false
  | c :: cs =>
    if c = '\n' ∧ cs.take 2 = ['\n', '\n'] then true else hasTriple cs

/-- Well-formedness of the text following one `;`: if the first
non-whitespace character after the `;` is a letter, the whitespace
between them is exactly one newline. -/
def semiShape (cs : List Char) : Bool :=
  match cs.dropWhile wsChar with
  | a :: _ => !alphaChar a || (cs.takeWhile wsChar == ['\n'])
  | [] => true

/-- Every `;` in the list that is followed by optional whitespace and
then a letter is immediately followed by exactly one newline and that
letter. -/
def semiOk : List Char → Bool
  | [] => true
  | c :: cs => (if c = ';' then semiShape cs else true) && semiOk cs

/-! ## Error model for the traversal

The script opens files with no `try`/`except`, so a failing read or
write raises and propagates out of `fix_template_formatting` and out of
`main`'s loop. Fallible I/O is embedded with `Except`: each file
carries flags saying whether its read/write succeeds, and the loop
threads the filesystem state so that the state at the moment of an
abort is visible. -/

structure MFile where
  path : List Char
  content : List Char
  readOk : Bool
  writeOk : Bool
deriving DecidableEq

/-- `open(file_path, 'r').read()`: the content, or a raised error. -/
def readF (f : MFile) : Except (List Char) (List Char) :=
  if f.readOk then Except.ok f.content
  else Except.error ("read error: ".toList ++ f.path)

/-- `open(file_path, 'w').write(c)`: the updated file, or a raised error. -/
def writeF (f : MFile) (c : List Char) : Except (List Char) MFile :=
  if f.writeOk then Except.ok { f with content := c }
  else Except.error ("write error: ".toList ++ f.path)

/-- `fix_template_formatting` on a fallible file: read, gate, rules,
write. An error from either I/O call propagates. -/
def processFileE (f : MFile) : Except (List Char) (Bool × MFile) :=
  match readF f with
  | Except.error e => Except.error e
  | Except.ok content =>
    if 10 < (content.splitOn '\n').length then Except.ok (false, f)
    else
      match writeF f (applyRules content) with
      | Except.error e => Except.error e
      | Except.ok f' => Except.ok (true, f')

/-- The state a file is left in by a successful `fix_template_formatting`
call: rewritten with the rule pipeline's output when the gate passes,
untouched otherwise. -/
def afterProcess (f : MFile) : MFile :=
  if needsFix f.content then { f with content := applyRules f.content } else f

/-- `main`'s loop over fallible files: on the first raised error the
whole run aborts, and the result carries the error together with the
filesystem state at that moment (processed files keep their new
content, unprocessed files their old content). -/
def runE : List MFile → Except (List Char × List MFile) (List (List Char) × Nat × List MFile)
  | [] => Except.ok ([], 0, [])
  | f :: fs =>
    match processFileE f with
    | Except.error e => Except.error (e, f :: fs)
    | Except.ok (b, f') =>
      match runE fs with
      | Except.error (e, rest) => Except.error (e, f' :: rest)
      | Except.ok (out, n, rest) =>
        if b then Except.ok (("Fixed: ".toList ++ f.path) :: out, n + 1, f' :: rest)
        else Except.ok (out, n, f' :: rest)

/-- A file whose read and write both succeed (witness fixture). -/
def goodFile : MFile :=
  { path := "good.hbs".toList, content := [], readOk := true, writeOk := true }

/-- A file whose read raises (witness fixture). -/
def badFile : MFile :=
  { path := "bad.hbs".toList, content := [], readOk := false, writeOk := true }

/-- A file after the failing one in traversal order (witness fixture). -/
def lateFile : MFile :=
  { path := "late.hbs".toList, content := [], readOk := true, writeOk := true }

/-- A file whose read succeeds, whose gate passes, and whose write
raises (witness fixture). -/
def badWriteFile : MFile :=
  { path := "badw.hbs".toList, content := [], readOk := true, writeOk := false }

/-- The input of the import/export separation test (§8 of the spec). -/
def c2Input : List Char :=
  "const x = 1;import { y } from \"m\";export const z = 2;".toList

/-- The pipeline's output on `c2Input`. -/
def c2Output : List Char :=
  "const x = 1;\nimport { y }\nfrom \"m\"\n;\nexport const z = 2;".toList

/-! ## Claims -/

/-- C1: for every file content whose split on the newline character has
more than 10 segments, `fix_template_formatting` performs no write (the
content is unchanged) and returns `false`. -/
theorem skip_invariant :
    ∀ content : List Char,
      10 < (content.splitOn '\n').length →
      fix_template_formatting content = (false, content) := by
  intro c h
  simp [fix_template_formatting, h]

theorem skip_invariant_witness :
    10 < ((List.replicate 10 '\n').splitOn '\n').length
    ∧ fix_template_formatting (List.replicate 10 '\n')
        = (false, List.replicate 10 '\n') :=
  ⟨by decide, skip_invariant (List.replicate 10 '\n') (by decide)⟩

/-- C2: on `const x = 1;import { y } from "m";export const z = 2;` the
pipeline produces content in which every occurrence of `import` and
every occurrence of `export` is immediately preceded by a line break,
and a line break immediately follows the closing quote of the import
statement (the text `"m"`); the full output is also pinned down
exactly. -/
theorem import_export_separation :
    applyRules c2Input = c2Output
    ∧ everyOccNLBefore ("import".toList) (applyRules c2Input) = true
    ∧ everyOccNLBefore ("export".toList) (applyRules c2Input) = true
    ∧ everyOccNLAfter ("\"m\"".toList) (applyRules c2Input) = true :=
  ⟨by decide, by decide, by decide, by decide⟩

/-- C5: the pipeline maps `const a = 1;const b = 2;` to exactly
`const a = 1;\nconst b = 2;` — a line break is inserted between the `;`
and the following letter and nothing else changes. -/
theorem terminator_split :
    applyRules ("const a = 1;const b = 2;".toList)
      = "const a = 1;\nconst b = 2;".toList := by
  decide

/-- C6: the rule pipeline is not idempotent — on `import x from 'm'`
rule 1 appends a newline after the quote on every pass, so a second
application differs from the first. -/
theorem pipeline_not_idempotent :
    ∃ c : List Char, applyRules (applyRules c) ≠ applyRules c :=
  ⟨"import x from 'm'".toList, by decide⟩

/-! ## Scanner lemmas for the blank-line collapse (rule 10) -/

theorem dropWhile_head_not {α : Type} (p : α → Bool) (l : List α) :
    ∀ {a : α} {t : List α}, l.dropWhile p = a :: t → p a = false := by
  induction l with
  | nil => intro a t h; simp [List.dropWhile] at h
  | cons c cs ih =>
    intro a t h
    rw [List.dropWhile_cons] at h
    by_cases hp : p c = true
    · rw [if_pos hp] at h
      exact ih h
    · rw [if_neg hp] at h
      cases h
      exact Bool.not_eq_true _ ▸ hp

theorem dropWhile_length_le {α : Type} (p : α → Bool) (l : List α) :
    (l.dropWhile p).length ≤ l.length := by
  induction l with
  | nil => simp [List.dropWhile]
  | cons c cs ih =>
    rw [List.dropWhile_cons]
    by_cases hp : p c = true
    · rw [if_pos hp]
      exact Nat.le_trans ih (Nat.le_succ _)
    · rw [if_neg hp]

theorem take_two_head {t : List Char} (h : t.take 2 = ['\n', '\n']) :
    t.head? = some '\n' := by
  cases t with
  | nil => simp at h
  | cons a t => simp [List.take_succ_cons] at h; simp [h.1]

theorem take_one_head {t : List Char} (h : t.take 1 = ['\n']) :
    t.head? = some '\n' := by
  cases t with
  | nil => simp at h
  | cons a t => simp [List.take_succ_cons] at h; simp [h]

theorem head_take_one {t : List Char} (h : t.head? = some '\n') :
    t.take 1 = ['\n'] := by
  cases t with
  | nil => simp at h
  | cons a t => simp at h; simp [List.take_succ_cons, h]

theorem sub10Go_nil (n : Nat) : sub10Go n [] = [] := by
  cases n <;> rfl

theorem sub10Go_cons (n : Nat) (c : Char) (cs : List Char) :
    sub10Go (n + 1) (c :: cs)
      = if c = '\n' ∧ cs.take 2 = ['\n', '\n'] then
          '\n' :: '\n' :: sub10Go n ((cs.drop 2).dropWhile (fun x => x == '\n'))
        else c :: sub10Go n cs := rfl

theorem hasTriple_cons (c : Char) (cs : List Char) :
    hasTriple (c :: cs)
      = if c = '\n' ∧ cs.take 2 = ['\n', '\n'] then true else hasTriple cs := rfl

/-- Rule 10 never changes the first character of the content. -/
theorem head?_sub10Go (n : Nat) (l : List Char) :
    (sub10Go n l).head? = l.head? := by
  cases n with
  | zero => rfl
  | succ n =>
    cases l with
    | nil => rfl
    | cons c cs =>
      rw [sub10Go_cons]
      by_cases hg : c = '\n' ∧ cs.take 2 = ['\n', '\n']
      · rw [if_pos hg]; simp [hg.1]
      · rw [if_neg hg]; rfl

/-- If rule 10's output starts with two newlines, so did its input. -/
theorem take_two_sub10Go {m : Nat} {ds : List Char}
    (h : (sub10Go m ds).take 2 = ['\n', '\n']) : ds.take 2 = ['\n', '\n'] := by
  cases m with
  | zero => exact h
  | succ m =>
    cases ds with
    | nil => rw [sub10Go_nil] at h; simp at h
    | cons d ds' =>
      rw [sub10Go_cons] at h
      by_cases hg : d = '\n' ∧ ds'.take 2 = ['\n', '\n']
      · have h1 : ds'.take 1 = ['\n'] := head_take_one (take_two_head hg.2)
        simp [List.take_succ_cons, hg.1, h1]
      · rw [if_neg hg] at h
        simp [List.take_succ_cons] at h
        have h1 : ds'.head? = some '\n' := by
          rw [← head?_sub10Go m ds']
          exact take_one_head h.2
        simp [List.take_succ_cons, h.1, head_take_one h1]

/-- Enough fuel given, rule 10's output never contains three consecutive
newlines. -/
theorem hasTriple_sub10Go :
    ∀ (n : Nat) (l : List Char), l.length ≤ n → hasTriple (sub10Go n l) = false := by
  intro n
  induction n using Nat.strong_induction_on with
  | _ n ih =>
    intro l hl
    cases n with
    | zero =>
      cases l with
      | nil => rfl
      | cons c cs => simp at hl
    | succ n =>
      cases l with
      | nil => rfl
      | cons c cs =>
        have hcs : cs.length ≤ n := by simp at hl; omega
        rw [sub10Go_cons]
        by_cases hg : c = '\n' ∧ cs.take 2 = ['\n', '\n']
        · rw [if_pos hg]
          set t := (cs.drop 2).dropWhile (fun x => x == '\n') with ht
          have htlen : t.length ≤ n := by
            have h1 : t.length ≤ (cs.drop 2).length := ht ▸ dropWhile_length_le _ _
            have h2 : (cs.drop 2).length = cs.length - 2 := List.length_drop 2 cs
            omega
          have hhead : (sub10Go n t).head? ≠ some '\n' := by
            rw [head?_sub10Go]
            cases hT : t with
            | nil => simp
            | cons e t' =>
              have he : (fun x => x == '\n') e = false :=
                dropWhile_head_not (fun x => x == '\n') (cs.drop 2)
                  (by rw [← ht]; exact hT)
              simp at he
              simp [he]
          rw [hasTriple_cons]
          have g1 : ¬('\n' = '\n' ∧ ('\n' :: sub10Go n t).take 2 = ['\n', '\n']) := by
            rintro ⟨-, h2⟩
            simp [List.take_succ_cons] at h2
            exact hhead (take_one_head h2)
          rw [if_neg g1, hasTriple_cons]
          have g2 : ¬('\n' = '\n' ∧ (sub10Go n t).take 2 = ['\n', '\n']) := by
            rintro ⟨-, h2⟩
            exact hhead (take_two_head h2)
          rw [if_neg g2]
          exact ih n (Nat.lt_succ_self n) t htlen
        · rw [if_neg hg, hasTriple_cons]
          have g : ¬(c = '\n' ∧ (sub10Go n cs).take 2 = ['\n', '\n']) := by
            rintro ⟨h1, h2⟩
            exact hg ⟨h1, take_two_sub10Go h2⟩
          rw [if_neg g]
          exact ih n (Nat.lt_succ_self n) cs hcs

/-- C4: for every input content, the final output of the rule pipeline
contains no occurrence of three or more consecutive line breaks (rule 10
runs last and collapses every such run to two). -/
theorem blank_line_collapse :
    ∀ content : List Char, hasTriple (applyRules content) = false := by
  intro content
  unfold applyRules sub10
  exact hasTriple_sub10Go _ _ le_rfl

/-! ## Character-class lemmas -/

theorem ws_cases {c : Char} (h : wsChar c = true) :
    c = ' ' ∨ c = '\t' ∨ c = '\n' ∨ c = '\r' ∨ c = '\x0b' ∨ c = '\x0c' := by
  simpa [wsChar, or_assoc] using h

theorem alpha_not_ws {c : Char} (ha : alphaChar c = true) : wsChar c = false := by
  cases hb : wsChar c with
  | false => rfl
  | true =>
    rcases ws_cases hb with h | h | h | h | h | h <;>
      (subst h; exact absurd ha (by decide))

theorem alpha_ne_semi {c : Char} (h : alphaChar c = true) : c ≠ ';' :=
  fun he => absurd (he ▸ h) (by decide)

theorem ws_ne_semi {c : Char} (h : wsChar c = true) : c ≠ ';' :=
  fun he => absurd (he ▸ h) (by decide)

/-! ## Lists of whitespace characters -/

theorem takeWhile_append_all {α : Type} (p : α → Bool) {w : List α} (x : List α)
    (hw : ∀ a ∈ w, p a = true) : (w ++ x).takeWhile p = w ++ x.takeWhile p := by
  induction w with
  | nil => simp
  | cons c w' ih =>
    rw [List.cons_append, List.takeWhile_cons, if_pos (hw c (by simp)), List.cons_append,
      ih fun a ha => hw a (by simp [ha])]

theorem dropWhile_append_all {α : Type} (p : α → Bool) {w : List α} (x : List α)
    (hw : ∀ a ∈ w, p a = true) : (w ++ x).dropWhile p = x.dropWhile p := by
  induction w with
  | nil => simp
  | cons c w' ih =>
    rw [List.cons_append, List.dropWhile_cons, if_pos (hw c (by simp))]
    exact ih fun a ha => hw a (by simp [ha])

theorem dropWhile_all {α : Type} (p : α → Bool) {l : List α}
    (h : ∀ a ∈ l, p a = true) : l.dropWhile p = [] := by
  induction l with
  | nil => rfl
  | cons c l' ih =>
    rw [List.dropWhile_cons, if_pos (h c (by simp))]
    exact ih fun a ha => h a (by simp [ha])

/-! ## Scanner lemmas for the terminator rule (rule 8) -/

theorem sub8Go_nil (n : Nat) : sub8Go n [] = [] := by cases n <;> rfl

theorem sub8Go_cons_ne {c : Char} (h : c ≠ ';') (n : Nat) (cs : List Char) :
    sub8Go (n + 1) (c :: cs) = c :: sub8Go n cs := by
  simp [sub8Go, h]

theorem sub8Go_semi_some {cs : List Char} {a : Char} {r : List Char}
    (h : semiMatch cs = some (a, r)) (n : Nat) :
    sub8Go (n + 1) (';' :: cs) = ';' :: '\n' :: a :: sub8Go n r := by
  simp [sub8Go, h]

theorem sub8Go_semi_none {cs : List Char} (h : semiMatch cs = none) (n : Nat) :
    sub8Go (n + 1) (';' :: cs) = ';' :: sub8Go n cs := by
  simp [sub8Go, h]

theorem semiMatch_some {cs : List Char} {a : Char} {r : List Char}
    (h : semiMatch cs = some (a, r)) :
    alphaChar a = true ∧ cs.dropWhile wsChar = a :: r := by
  unfold semiMatch at h
  cases hd : cs.dropWhile wsChar with
  | nil => rw [hd] at h; simp at h
  | cons d u =>
    rw [hd] at h
    simp only [] at h
    by_cases hα : alphaChar d = true
    · rw [if_pos hα] at h
      simp only [Option.some.injEq, Prod.mk.injEq] at h
      obtain ⟨h1, h2⟩ := h
      subst h1; subst h2
      exact ⟨hα, rfl⟩
    · rw [if_neg hα] at h; simp at h

theorem semiMatch_none_cases {cs : List Char} (h : semiMatch cs = none) :
    cs.dropWhile wsChar = []
    ∨ ∃ d u, cs.dropWhile wsChar = d :: u ∧ alphaChar d = false := by
  cases hd : cs.dropWhile wsChar with
  | nil => exact Or.inl rfl
  | cons d u =>
    refine Or.inr ⟨d, u, rfl, ?_⟩
    unfold semiMatch at h
    rw [hd] at h
    simp only [] at h
    cases hα : alphaChar d with
    | false => rfl
    | true => rw [if_pos hα] at h; simp at h

theorem semiShape_ws_nil {t : List Char} (h : t.dropWhile wsChar = []) :
    semiShape t = true := by
  simp [semiShape, h]

theorem semiShape_head_not_alpha {t : List Char} {d : Char} {u : List Char}
    (h : t.dropWhile wsChar = d :: u) (hα : alphaChar d = false) :
    semiShape t = true := by
  simp [semiShape, h, hα]

theorem semiOk_cons (c : Char) (cs : List Char) :
    semiOk (c :: cs) = ((if c = ';' then semiShape cs else true) && semiOk cs) := rfl

theorem semiOk_cons_ne {c : Char} (h : c ≠ ';') (cs : List Char) :
    semiOk (c :: cs) = semiOk cs := by
  rw [semiOk_cons, if_neg h, Bool.true_and]

theorem semiOk_append_ne {w : List Char} (hw : ∀ a ∈ w, a ≠ ';') (t : List Char) :
    semiOk (w ++ t) = semiOk t := by
  induction w with
  | nil => rfl
  | cons c w' ih =>
    rw [List.cons_append, semiOk_cons_ne (hw c (by simp))]
    exact ih fun a ha => hw a (by simp [ha])

/-- Rule 8 never changes the first character of the content. -/
theorem head?_sub8Go (m : Nat) (l : List Char) :
    (sub8Go m l).head? = l.head? := by
  cases m with
  | zero => rfl
  | succ m =>
    cases l with
    | nil => rfl
    | cons c cs =>
      by_cases hc : c = ';'
      · subst hc
        cases hm : semiMatch cs with
        | none => rw [sub8Go_semi_none hm]; rfl
        | some ar =>
          obtain ⟨a, r⟩ := ar
          rw [sub8Go_semi_some hm]; rfl
      · rw [sub8Go_cons_ne hc]; rfl

/-- A run of non-`;` characters is copied verbatim by rule 8's scanner,
losing one unit of fuel per character. -/
theorem sub8Go_ws_append :
    ∀ (w : List Char) (n : Nat) (r : List Char), (∀ a ∈ w, a ≠ ';') →
      w.length + r.length ≤ n →
      ∃ m, m ≤ n ∧ r.length ≤ m ∧ sub8Go n (w ++ r) = w ++ sub8Go m r := by
  intro w
  induction w with
  | nil => intro n r _ hlen; exact ⟨n, le_rfl, by simpa using hlen, by simp⟩
  | cons c w' ih =>
    intro n r hw hlen
    cases n with
    | zero => simp at hlen
    | succ n =>
      have hc : c ≠ ';' := hw c (by simp)
      obtain ⟨m, hm, hrm, heq⟩ :=
        ih n r (fun a ha => hw a (by simp [ha])) (by simp at hlen; omega)
      exact ⟨m, Nat.le_succ_of_le hm, hrm,
        by rw [List.cons_append, sub8Go_cons_ne hc, heq, List.cons_append]⟩

/-- Enough fuel given, every `;` in rule 8's output that is followed by
optional whitespace and then a letter is immediately followed by exactly
one newline and that letter. -/
theorem semiOk_sub8Go :
    ∀ (n : Nat) (l : List Char), l.length ≤ n → semiOk (sub8Go n l) = true := by
  intro n
  induction n using Nat.strong_induction_on with
  | _ n ih =>
    intro l hl
    cases l with
    | nil => rw [sub8Go_nil]; rfl
    | cons c cs =>
      cases n with
      | zero => simp at hl
      | succ n =>
        have hcs : cs.length ≤ n := by simp at hl; omega
        by_cases hc : c = ';'
        · subst hc
          cases hm : semiMatch cs with
          | some ar =>
            obtain ⟨a, r⟩ := ar
            obtain ⟨hα, hdrop⟩ := semiMatch_some hm
            have haws : wsChar a = false := alpha_not_ws hα
            have hane : a ≠ ';' := alpha_ne_semi hα
            have hrn : r.length ≤ n := by
              have hle := dropWhile_length_le wsChar cs
              rw [hdrop] at hle
              simp at hle
              omega
            rw [sub8Go_semi_some hm, semiOk_cons, if_pos rfl]
            have hnl : wsChar '\n' = true := by decide
            have hshape : semiShape ('\n' :: a :: sub8Go n r) = true := by
              simp [semiShape, List.dropWhile_cons, List.takeWhile_cons, hnl, haws]
            rw [hshape, Bool.true_and,
              semiOk_cons_ne (by decide : ('\n' : Char) ≠ ';'), semiOk_cons_ne hane]
            exact ih n (Nat.lt_succ_self n) r hrn
          | none =>
            rw [sub8Go_semi_none hm]
            have hsplit := List.takeWhile_append_dropWhile (p := wsChar) (l := cs)
            have hwws : ∀ a ∈ cs.takeWhile wsChar, wsChar a = true :=
              fun a ha => List.mem_takeWhile_imp ha
            have hwne : ∀ a ∈ cs.takeWhile wsChar, a ≠ ';' :=
              fun a ha => ws_ne_semi (hwws a ha)
            have hlen2 : (cs.takeWhile wsChar).length + (cs.dropWhile wsChar).length ≤ n := by
              have hl2 : (cs.takeWhile wsChar ++ cs.dropWhile wsChar).length = cs.length := by
                rw [hsplit]
              simp only [List.length_append] at hl2
              omega
            obtain ⟨m, hm2, hrm, heq⟩ :=
              sub8Go_ws_append (cs.takeWhile wsChar) n (cs.dropWhile wsChar) hwne hlen2
            have hcseq : sub8Go n cs = cs.takeWhile wsChar ++ sub8Go m (cs.dropWhile wsChar) := by
              conv_lhs => rw [← hsplit]
              exact heq
            rw [hcseq, semiOk_cons, if_pos rfl]
            have hok : semiOk (cs.takeWhile wsChar ++ sub8Go m (cs.dropWhile wsChar)) = true := by
              rw [semiOk_append_ne hwne]
              exact ih m (Nat.lt_succ_of_le hm2) (cs.dropWhile wsChar) hrm
            have hshape : semiShape (cs.takeWhile wsChar ++ sub8Go m (cs.dropWhile wsChar)) = true := by
              rcases semiMatch_none_cases hm with hnil | ⟨d, u, hdu, hdα⟩
              · rw [hnil, sub8Go_nil, List.append_nil]
                exact semiShape_ws_nil (dropWhile_all wsChar hwws)
              · have hdws : wsChar d = false := dropWhile_head_not wsChar cs hdu
                have hxhead : (sub8Go m (cs.dropWhile wsChar)).head? = some d := by
                  rw [head?_sub8Go, hdu]; rfl
                cases hx : sub8Go m (cs.dropWhile wsChar) with
                | nil => rw [hx] at hxhead; simp at hxhead
                | cons e x' =>
                  have hed : e = d := by rw [hx] at hxhead; simpa using hxhead
                  rw [hed]
                  have hdw : (cs.takeWhile wsChar ++ d :: x').dropWhile wsChar = d :: x' := by
                    rw [dropWhile_append_all wsChar _ hwws, List.dropWhile_cons,
                      if_neg (by simp [hdws])]
                  exact semiShape_head_not_alpha hdw hdα
            rw [hshape, Bool.true_and]
            exact hok
        · rw [sub8Go_cons_ne hc, semiOk_cons_ne hc]
          exact ih n (Nat.lt_succ_self n) cs hcs

/-- Rule 8 neither adds nor removes `;` characters. -/
theorem count_semi_sub8Go :
    ∀ (n : Nat) (l : List Char), l.length ≤ n →
      (sub8Go n l).count ';' = l.count ';' := by
  intro n
  induction n using Nat.strong_induction_on with
  | _ n ih =>
    intro l hl
    cases l with
    | nil => rw [sub8Go_nil]
    | cons c cs =>
      cases n with
      | zero => simp at hl
      | succ n =>
        have hcs : cs.length ≤ n := by simp at hl; omega
        by_cases hc : c = ';'
        · subst hc
          cases hm : semiMatch cs with
          | some ar =>
            obtain ⟨a, r⟩ := ar
            obtain ⟨hα, hdrop⟩ := semiMatch_some hm
            have hane : a ≠ ';' := alpha_ne_semi hα
            have hrn : r.length ≤ n := by
              have hle := dropWhile_length_le wsChar cs
              rw [hdrop] at hle; simp at hle; omega
            have hsplit := List.takeWhile_append_dropWhile (p := wsChar) (l := cs)
            have hwz : (cs.takeWhile wsChar).count ';' = 0 := by
              rw [List.count_eq_zero]
              intro hmem
              exact ws_ne_semi (List.mem_takeWhile_imp hmem) rfl
            have hcount : cs.count ';' = r.count ';' := by
              conv_lhs => rw [← hsplit, hdrop]
              simp [List.count_append, List.count_cons, hwz, hane]
            have hx := ih n (Nat.lt_succ_self n) r hrn
            rw [sub8Go_semi_some hm]
            simp [List.count_cons, hane, hx, hcount]
          | none =>
            rw [sub8Go_semi_none hm]
            have hx := ih n (Nat.lt_succ_self n) cs hcs
            simp [List.count_cons, hx]
        · rw [sub8Go_cons_ne hc]
          have hx := ih n (Nat.lt_succ_self n) cs hcs
          simp [List.count_cons, hx]

/-- C7: in rule 8's output, every statement terminator `;` that is
followed by optional whitespace and then an alphabetic character is
immediately followed by a newline and then that character; and no `;` is
created or destroyed, so this covers the image of every terminator of
the input. -/
theorem terminator_breaks_everywhere :
    ∀ content : List Char,
      semiOk (sub8 content) = true
      ∧ (sub8 content).count ';' = content.count ';' :=
  fun content =>
    ⟨semiOk_sub8Go content.length content le_rfl,
      count_semi_sub8Go content.length content le_rfl⟩

/-! ## Rules 2/3: what a single pass does and does not guarantee -/

/-- With enough fuel, whenever the content contains a match of the
rules-2/3 pattern (whitespace, the keyword, whitespace), the scanner's
output contains the keyword immediately preceded by a newline. -/
theorem kwWs_infix_aux (kw : List Char) :
    ∀ (n : Nat) (l : List Char), l.length ≤ n → hasKwWsMatch kw l = true →
      List.IsInfix ('\n' :: kw) (subKwWsGo kw n l) := by
  intro n
  induction n with
  | zero =>
    intro l hl hm
    cases l with
    | nil => simp [hasKwWsMatch] at hm
    | cons c cs => simp at hl
  | succ n ih =>
    intro l hl hm
    cases l with
    | nil => simp [hasKwWsMatch] at hm
    | cons c cs =>
      have hcs : cs.length ≤ n := by simp at hl; omega
      have hunf : hasKwWsMatch kw (c :: cs)
          = ((wsChar c && (kwWsMatch kw ((c :: cs).dropWhile wsChar)).isSome)
              || hasKwWsMatch kw cs) := rfl
      by_cases hws : wsChar c = true
      · have hdw : (c :: cs).dropWhile wsChar = cs.dropWhile wsChar := by
          simp [List.dropWhile_cons, hws]
        cases hkm : kwWsMatch kw ((c :: cs).dropWhile wsChar) with
        | some wr =>
          obtain ⟨w, r⟩ := wr
          rw [hdw] at hkm
          have heq : subKwWsGo kw (n + 1) (c :: cs)
              = '\n' :: (kw ++ w :: subKwWsGo kw n r) := by
            simp [subKwWsGo, hws, hkm]
          rw [heq]
          exact List.IsPrefix.isInfix ⟨w :: subKwWsGo kw n r, by simp⟩
        | none =>
          have hkm' : kwWsMatch kw (cs.dropWhile wsChar) = none := by rw [← hdw]; exact hkm
          have heq : subKwWsGo kw (n + 1) (c :: cs) = c :: subKwWsGo kw n cs := by
            simp [subKwWsGo, hws, hkm']
          rw [heq]
          refine List.infix_cons (ih cs hcs ?_)
          rw [hunf, hkm] at hm
          simpa using hm
      · have heq : subKwWsGo kw (n + 1) (c :: cs) = c :: subKwWsGo kw n cs := by
          simp [subKwWsGo, hws]
        rw [heq]
        refine List.infix_cons (ih cs hcs ?_)
        rw [hunf] at hm
        simp [hws] at hm
        exact hm

/-- C3, counterexample: on ` import import x` rule 2's single
left-to-right pass consumes the whitespace before the second `import` as
part of the first match, so in the output `\nimport import x` the second
`import` is still preceded by a plain space — the claim that every
whitespace-preceded `import` ends up preceded by a newline is false. -/
theorem import_break_claim_fails :
    wsOccNLBefore ("import".toList) (sub2 (" import import x".toList)) = false := by
  decide

/-- C3, amended: rule 2 rewrites the whitespace-preceded `import`
occurrences found by one left-to-right non-overlapping pass (each must
also be followed by a whitespace character, as the pattern `import\s`
demands); in particular, whenever the content contains whitespace
followed by `import` followed by whitespace, the rule's output contains
an occurrence of `import` immediately preceded by a newline. -/
theorem import_rule_inserts_break :
    ∀ content : List Char,
      hasKwWsMatch ("import".toList) content = true →
      List.IsInfix ('\n' :: "import".toList) (sub2 content) :=
  fun content h => kwWs_infix_aux ("import".toList) content.length content le_rfl h

theorem import_rule_inserts_break_witness :
    hasKwWsMatch ("import".toList) (" import x".toList) = true
    ∧ List.IsInfix ('\n' :: "import".toList) (sub2 (" import x".toList)) :=
  ⟨by decide, import_rule_inserts_break (" import x".toList) (by decide)⟩

/-! ## The traversal loop -/

/-- `fix_template_formatting` returns `True` exactly when the line-count
gate passes. -/
theorem fix_fst (c : List Char) : (fix_template_formatting c).1 = needsFix c := by
  unfold fix_template_formatting needsFix
  by_cases h : 10 < (c.splitOn '\n').length
  · rw [if_pos h]; simp; omega
  · rw [if_neg h]; simp; omega

/-- C8: the loop prints one `Fixed: <path>` line per gate-passing file,
in traversal order, and the final count equals the number of
gate-passing files; when the traversed paths are distinct the printed
lines are distinct. -/
theorem run_count_accuracy :
    ∀ files : List (List Char × List Char),
      (run files).1
        = (files.filter fun f => needsFix f.2).map (fun f => "Fixed: ".toList ++ f.1)
      ∧ (run files).2 = (files.filter fun f => needsFix f.2).length
      ∧ ((files.map Prod.fst).Nodup → (run files).1.Nodup) := by
  have hmain : ∀ fs : List (List Char × List Char),
      run fs = ((fs.filter fun f => needsFix f.2).map (fun f => "Fixed: ".toList ++ f.1),
                (fs.filter fun f => needsFix f.2).length) := by
    intro fs
    induction fs with
    | nil => rfl
    | cons f fs ih =>
      by_cases h : needsFix f.2 = true
      · simp [run, ih, fix_fst, h, List.filter_cons]
      · simp [run, ih, fix_fst, h, List.filter_cons]
  intro files
  refine ⟨by rw [hmain], by rw [hmain], ?_⟩
  intro hnd
  rw [hmain]
  have h1 : ((files.filter fun f => needsFix f.2).map Prod.fst).Sublist
      (files.map Prod.fst) :=
    List.Sublist.map _ (List.filter_sublist files)
  have h2 : ((files.filter fun f => needsFix f.2).map Prod.fst).Nodup :=
    List.Nodup.sublist h1 hnd
  have h3 : Function.Injective (fun p : List Char => "Fixed: ".toList ++ p) :=
    fun a b h => List.append_cancel_left h
  have h4 : (files.filter fun f => needsFix f.2).map (fun f => "Fixed: ".toList ++ f.1)
      = ((files.filter fun f => needsFix f.2).map Prod.fst).map
          (fun p => "Fixed: ".toList ++ p) := by
    simp [List.map_map, Function.comp]
  rw [h4]
  exact h2.map h3

theorem run_count_accuracy_witness :
    (([(("a.hbs").toList, ([] : List Char)),
       (("b.hbs").toList, List.replicate 10 '\n')].map Prod.fst).Nodup)
    ∧ (run [("a.hbs".toList, ([] : List Char)),
            ("b.hbs".toList, List.replicate 10 '\n')]).1.Nodup :=
  ⟨by decide, (run_count_accuracy _).2.2 (by decide)⟩

/-- C10: whenever the gate passes, `fix_template_formatting` writes the
file and returns `True` even when no rule changes the content; in
particular an empty file is rewritten byte-identically, reported with a
`Fixed: <path>` line and counted. -/
theorem gate_pass_always_writes :
    (∀ c : List Char, ¬ 10 < (c.splitOn '\n').length →
        fix_template_formatting c = (true, applyRules c))
    ∧ applyRules ([] : List Char) = []
    ∧ fix_template_formatting ([] : List Char) = (true, [])
    ∧ run [("empty.hbs".toList, ([] : List Char))]
        = ([("Fixed: empty.hbs".toList)], 1) := by
  refine ⟨?_, by decide, by decide, by decide⟩
  intro c h
  simp [fix_template_formatting, h]

theorem gate_pass_always_writes_witness :
    ¬ 10 < ((([] : List Char)).splitOn '\n').length
    ∧ fix_template_formatting ([] : List Char) = (true, applyRules []) :=
  ⟨by decide, gate_pass_always_writes.1 [] (by decide)⟩

/-! ## Error propagation through the traversal -/

/-- A file whose read and write succeed is processed normally: the call
returns the gate's verdict and leaves the file in its `afterProcess`
state. -/
theorem good_processFileE {g : MFile} (hr : g.readOk = true) (hw : g.writeOk = true) :
    processFileE g = Except.ok (needsFix g.content, afterProcess g) := by
  by_cases h : 10 < (g.content.splitOn '\n').length
  · have hnf : needsFix g.content = false := by simp [needsFix]; omega
    simp [processFileE, readF, writeF, afterProcess, hr, hw, hnf, h]
  · have hnf : needsFix g.content = true := by simp [needsFix]; omega
    simp [processFileE, readF, writeF, afterProcess, hr, hw, hnf, h]

/-- C9: if processing some file raises an error — a failing read, or a
failing write (which the script attempts exactly when the gate passes) —
the run aborts at that file: the error propagates out of the loop, every
file processed before it keeps its freshly written content (no
rollback), and every file after it — including the failing one — is left
exactly as it was (never read or written). -/
theorem run_aborts_on_error :
    (∀ (pre : List MFile) (f : MFile) (post : List MFile) (e : List Char),
        processFileE f = Except.error e →
        (∀ g ∈ pre, g.readOk = true ∧ g.writeOk = true) →
        runE (pre ++ f :: post)
          = Except.error (e, pre.map afterProcess ++ f :: post))
    ∧ (∀ f : MFile, f.readOk = false →
        processFileE f = Except.error ("read error: ".toList ++ f.path))
    ∧ (∀ f : MFile, f.readOk = true → f.writeOk = false →
        needsFix f.content = true →
        processFileE f = Except.error ("write error: ".toList ++ f.path)) := by
  refine ⟨?_, ?_, ?_⟩
  · intro pre
    induction pre with
    | nil =>
      intro f post e hp _
      simp [runE, hp]
    | cons g pre ih =>
      intro f post e hp hgood
      have hg := hgood g (by simp)
      have hpg := good_processFileE hg.1 hg.2
      have htail := ih f post e hp (fun x hx => hgood x (by simp [hx]))
      simp [runE, hpg, htail]
  · intro f hr
    simp [processFileE, readF, hr]
  · intro f hr hw hnf
    have h : ¬ 10 < (f.content.splitOn '\n').length := by
      simp [needsFix] at hnf; omega
    simp [processFileE, readF, writeF, hr, hw, h]

theorem run_aborts_on_error_witness :
    processFileE badWriteFile
      = Except.error ("write error: ".toList ++ badWriteFile.path)
    ∧ (∀ g ∈ [goodFile], g.readOk = true ∧ g.writeOk = true)
    ∧ runE ([goodFile] ++ badWriteFile :: [lateFile])
        = Except.error ("write error: ".toList ++ badWriteFile.path,
            [goodFile].map afterProcess ++ badWriteFile :: [lateFile])
    ∧ badFile.readOk = false
    ∧ processFileE badFile = Except.error ("read error: ".toList ++ badFile.path) :=
  ⟨rfl, by decide,
    run_aborts_on_error.1 [goodFile] badWriteFile [lateFile]
      ("write error: ".toList ++ badWriteFile.path) rfl (by decide),
    rfl, run_aborts_on_error.2.1 badFile rfl⟩
